import Mathlib

/-!
Verification of the voice-reduction and chord-identification core of the
string-quartet arrangement scripts.  Definitions are shallow embeddings of
the Python sources in src/music-project; integers model MIDI numbers and
pitch classes, rationals model the float weights, durations and scores.
-/

/-! ## Chord identification (extract_chords_v7_final.py, extract_chords_v9_verified.py,
extract_chords_v10_octave.py) -/

/-- CHORD_TEMPLATES of extract_chords_v7_final.py, extract_chords_v9_verified.py and
extract_chords_v10_octave.py, in dict insertion order.  Only six templates are present. -/
def chordTemplates : List (String × List ℤ) :=
  [("major", [0, 4, 7]), ("minor", [0, 3, 7]), ("dom7", [0, 4, 7, 10]),
   ("min7", [0, 3, 7, 10]), ("diminished", [0, 3, 6]), ("augmented", [0, 4, 8])]

/-- Modelled from the spec: the eight-template list named by section 4.3 of the
specification, which additionally contains Sus2 and Sus4.  The cited extractors
implement only the first six. -/
def chordTemplatesSpec8 : List (String × List ℤ) :=
  chordTemplates ++ [("sus2", [0, 2, 7]), ("sus4", [0, 5, 7])]

/-- The interval set of match_chord: all (pc - root_pc) mod 12, as a set
(modelled as a duplicate-free list). -/
def intervalSet (pcs : List ℤ) (rootPc : ℤ) : List ℤ :=
  (pcs.map (fun pc => (pc - rootPc) % 12)).dedup

/-- The per-template score of match_chord: matched / size, minus 0.1 per extra
interval when more than one extra interval is present, plus the 0.05 major bonus
in the V10 variant (useMajorBonus = true). -/
def templateScore (useMajorBonus : Bool) (ivs : List ℤ) (t : String × List ℤ) : ℚ :=
  let m := (ivs.filter (fun i => i ∈ t.2)).length
  let s : ℚ := (m : ℚ) / (t.2.length : ℚ)
  let extra := (ivs.filter (fun i => i ∉ t.2)).length
  let s' := if 1 < extra then s - (1 / 10) * (extra : ℚ) else s
  if useMajorBonus ∧ t.1 = "major" then s' + 1 / 20 else s'

/-- One iteration of the best-template loop of match_chord: replace the current
best when the new score is strictly greater and reaches the 0.65 threshold. -/
def chordStep (b : Bool) (ivs : List ℤ) (acc : Option String × ℚ) (t : String × List ℤ) :
    Option String × ℚ :=
  let s := templateScore b ivs t
  if acc.2 < s ∧ 13 / 20 ≤ s then (some t.1, s) else acc

/-- The chord-symbol rendering of match_chord. -/
def renderSym (rootName nm : String) : String :=
  if nm = "major" then rootName
  else if nm = "minor" then rootName ++ "m"
  else if nm = "dom7" then rootName ++ "7"
  else if nm = "min7" then rootName ++ "m7"
  else if nm = "diminished" then rootName ++ "dim"
  else if nm = "augmented" then rootName ++ "aug"
  else rootName ++ nm

/-- match_chord of the cited extractors.  useMajorBonus selects the V10 variant
with the +0.05 major bonus; extract_chords_v7_final.py has useMajorBonus = false. -/
def matchChord (b : Bool) (pcs : List ℤ) (rootPc : ℤ) (rootName : String) :
    Option (String × ℚ) :=
  if pcs = [] then none
  else
    match chordTemplates.foldl (chordStep b (intervalSet pcs rootPc)) (none, 0) with
    | (none, _) => none
    | (some nm, s) => some (renderSym rootName nm, s)

/-- The first-maximum scan behind Counter.most_common(1): fold keeping the first
entry of maximal count. -/
def mostCommon (c : ℤ × ℕ) (cs : List (ℤ × ℕ)) : ℤ × ℕ :=
  cs.foldl (fun acc p => if acc.2 < p.2 then p else acc) c

/-- verify_bass_with_frequency of extract_chords_v9_verified.py and
extract_chords_v10_octave.py: replace the elected bass pitch class when its raw
count is strictly below half of the most frequent raw count. -/
def verifyBassWithFrequency (bassPc : Option ℤ) (counts : List (ℤ × ℕ)) : Option ℤ :=
  match bassPc, counts with
  | none, _ => none
  | some bp, [] => some bp
  | some bp, c :: cs =>
    let bassFreq := ((c :: cs).lookup bp).getD 0
    let mc := mostCommon c cs
    if (bassFreq : ℚ) < (mc.2 : ℚ) * (1 / 2) then some mc.1 else some bp

/-- The maximal raw count of a count table (specification side). -/
def maxRawCount (counts : List (ℤ × ℕ)) : ℕ :=
  counts.foldl (fun a p => max a p.2) 0

/-- Duration-weight tiers of get_segment_bass_weighted in extract_chords_v7_final.py
(lines 58-64): 0.1 below half a quarter. -/
def durWeightBassV7 (d : ℚ) : ℚ :=
  if d < 1 / 2 then 1 / 10 else if d < 1 then 1 else 2

/-- Duration-weight tiers of get_segment_pitches_weighted in extract_chords_v7_final.py
(lines 120-126): 0.2 below half a quarter. -/
def durWeightPitchesV7 (d : ℚ) : ℚ :=
  if d < 1 / 2 then 1 / 5 else if d < 1 then 1 else 2

/-- Duration-weight tiers of analyze_measure_harmony_refined in
arrange_to_quartet_v10_classical.py (lines 259-264): 0.3 below half a quarter. -/
def durWeightArrangeV10 (d : ℚ) : ℚ :=
  if d < 1 / 2 then 3 / 10 else if d < 1 then 1 else 2

/-! ## Voice reduction (arrange_to_quartet_v10_classical.py) -/

/-- A weighted candidate note as produced by analyze_measure_harmony_refined:
offset inside the measure, MIDI number, weight, quarter-note duration. -/
structure Cand where
  offset : ℚ
  midi : ℤ
  weight : ℚ
  duration : ℚ

/-- The per-measure analysis result consumed by select_harmonic_voices_for_offset. -/
structure HarmonyInfo where
  pcWeights : List (ℤ × ℚ)
  melodyCands : List Cand
  bassCands : List Cand
  harmonyCands : List Cand

/-- One four-voice assignment in the order returned by the reduction:
cello, viola, violin2, violin1. -/
structure Quad where
  cello : ℤ
  viola : ℤ
  violin2 : ℤ
  violin1 : ℤ
deriving DecidableEq

/-- Stable insertion into a weight-descending list: the new element goes after
all elements of greater or equal key, as in the stable sorted(..., reverse=True). -/
def insertDescBy {α : Type} (f : α → ℚ) (x : α) : List α → List α
  | [] => [x]
  | y :: ys => if f y < f x then x :: y :: ys else y :: insertDescBy f x ys

/-- Stable descending sort by a rational key, processing elements left to right. -/
def sortDescBy {α : Type} (f : α → ℚ) (l : List α) : List α :=
  l.foldl (fun acc x => insertDescBy f x acc) []

/-- Stable insertion of an index into an index list ascending by list value,
as in the stable sorted(range(4), key=...). -/
def insertAscIdx (v : List ℤ) (i : ℕ) : List ℕ → List ℕ
  | [] => [i]
  | j :: js => if v.getD i 0 < v.getD j 0 then i :: j :: js else j :: insertAscIdx v i js

/-- sorted(range(len(v)), key=lambda i: v[i]) of the re-sort check. -/
def sortIdxByVal (v : List ℤ) : List ℕ :=
  (List.range v.length).foldl (fun acc i => insertAscIdx v i acc) []

/-- The final re-sort check of select_harmonic_voices_for_offset: when the index
sort is not the identity, replace the list by its sorted values. -/
def resortQuad (v : List ℤ) : List ℤ :=
  let idx := sortIdxByVal v
  if idx = List.range v.length then v else idx.map (fun i => v.getD i 0)

/-- The while loop adding octaves until the pitch reaches comfort_min; the fuel
bounds the iteration count and is sufficient for every input. -/
def foldUpAux : ℕ → ℤ → ℤ → ℤ
  | 0, _, m => m
  | fuel + 1, cmin, m => if m < cmin then foldUpAux fuel cmin (m + 12) else m

/-- The while loop removing octaves until the pitch is at most comfort_max. -/
def foldDownAux : ℕ → ℤ → ℤ → ℤ
  | 0, _, m => m
  | fuel + 1, cmax, m => if cmax < m then foldDownAux fuel cmax (m - 12) else m

def foldUp (cmin m : ℤ) : ℤ := foldUpAux (cmin - m).toNat cmin m

def foldDown (cmax m : ℤ) : ℤ := foldDownAux (m - cmax).toNat cmax m

/-- Octave folding into the comfort sub-range of transpose_to_ideal_range. -/
def comfortFold (cmin cmax m : ℤ) : ℤ :=
  if m < cmin then foldUp cmin m
  else if cmax < m then foldDown cmax m
  else m

inductive InstType where
  | violin
  | viola
  | cello
deriving DecidableEq

structure InstRange where
  rmin : ℤ
  rmax : ℤ
  comfortMin : ℤ
  comfortMax : ℤ

/-- IDEAL_RANGES of arrange_to_quartet_v10_classical.py. -/
def idealRanges : InstType → InstRange
  | InstType.violin => ⟨55, 103, 60, 95⟩
  | InstType.viola => ⟨48, 91, 52, 80⟩
  | InstType.cello => ⟨36, 84, 40, 70⟩

/-- transpose_to_ideal_range: comfort folding, absolute clamping, then the
avoid-same-pitch adjustment (viola up a fifth, violin down a fifth). -/
def transposeToIdealRange (midi : ℤ) (inst : InstType) (avoidSameAs : Option ℤ) : ℤ :=
  let ideal := idealRanges inst
  let m1 := comfortFold ideal.comfortMin ideal.comfortMax midi
  let m2 := if m1 < ideal.rmin then ideal.rmin
            else if ideal.rmax < m1 then ideal.rmax
            else m1
  match avoidSameAs with
  | some a => if m2 = a then (if inst = InstType.viola then m2 + 7 else m2 - 7) else m2
  | none => m2

/-- The while loop raising a pitch by semitones until its pitch class matches pc;
all call sites pass a pitch class in 0..11, for which 12 steps of fuel suffice. -/
def bumpAux : ℕ → ℤ → ℤ → ℤ
  | 0, _, m => m
  | fuel + 1, pc, m => if m % 12 = pc then m else bumpAux fuel pc (m + 1)

def bumpToPc (m pc : ℤ) : ℤ := bumpAux 12 pc m

/-- max(candidates, key=weight): the first candidate of maximal weight. -/
def maxByWeight (c : Cand) (cs : List Cand) : Cand :=
  cs.foldl (fun acc x => if acc.weight < x.weight then x else acc) c

/-- The candidates whose offset is within 0.01 of the current offset. -/
def candsAt (cs : List Cand) (o : ℚ) : List Cand :=
  cs.filter (fun n => |n.offset - o| < 1 / 100)

/-- The while loop filling top_pcs to four entries by stacking fifths above the
last selected pitch class (with the default C7 extension from the empty case). -/
def fillAux : ℕ → List ℤ → List ℤ
  | 0, l => l
  | fuel + 1, l =>
    if l.length < 4 then
      match l.getLast? with
      | some last => fillAux fuel (l ++ [(last + 7) % 12])
      | none => l ++ [0, 4, 7, 10]
    else l

/-- The top four pitch classes by summed weight, in stable descending order. -/
def topBasePcs (w : List (ℤ × ℚ)) : List ℤ :=
  ((sortDescBy Prod.snd w).take 4).map Prod.fst

/-- top_pcs of select_harmonic_voices_for_offset, including the fifth-stacking
fill and the default for an empty weight table. -/
def topPcs (w : List (ℤ × ℚ)) : List ℤ :=
  if w = [] then [0, 4, 7, 10] else fillAux 4 (topBasePcs w)

/-- The three octave candidates of the voice-leading step, paired with their
absolute distances to the previous pitch. -/
def vlOptions (previous current : ℤ) : List (ℤ × ℕ) :=
  ([-12, 0, 12] : List ℤ).map (fun shift =>
    ((((previous + shift) / 12) * 12 + current % 12),
      ((((previous + shift) / 12) * 12 + current % 12) - previous).natAbs))

/-- min(options, key=lambda x: x[1]): the first pair of minimal distance. -/
def minBySnd (p : ℤ × ℕ) (ps : List (ℤ × ℕ)) : ℤ × ℕ :=
  ps.foldl (fun acc x => if x.2 < acc.2 then x else acc) p

/-- The voice-leading smoothing of select_harmonic_voices_for_offset: when the
leap from the previous pitch exceeds an octave, pick the octave candidate of the
same pitch class closest to the previous pitch. -/
def vlAdjust (previous current : ℤ) : ℤ :=
  if 12 < (current - previous).natAbs then
    match vlOptions previous current with
    | [] => current
    | p :: ps => (minBySnd p ps).1
  else current

/-- The tail of select_harmonic_voices_for_offset: instrument range folding of
the four voices (with the two avoid-same-pitch couplings), then the re-sort
check, returned as a Quad in the order cello, viola, violin2, violin1. -/
def quadFromTranspose (n0 n1 n2 n3 : ℤ) : Quad :=
  let t0 := transposeToIdealRange n0 InstType.cello none
  let t1 := transposeToIdealRange n1 InstType.viola (some n2)
  let t2 := transposeToIdealRange n2 InstType.violin (some t1)
  let t3 := transposeToIdealRange n3 InstType.violin none
  let ys := resortQuad [t0, t1, t2, t3]
  ⟨ys.getD 0 0, ys.getD 1 0, ys.getD 2 0, ys.getD 3 0⟩

/-- select_harmonic_voices_for_offset of arrange_to_quartet_v10_classical.py. -/
def selectHarmonicVoices (hi : HarmonyInfo) (offset : ℚ) (previous : Option Quad) : Quad :=
  let tp := topPcs hi.pcWeights
  let b0 := 2 * 12 + tp.getD 0 0
  let b1 := 3 * 12 + tp.getD 1 0
  let b2 := 4 * 12 + tp.getD 2 0
  let b3 := 5 * 12 + tp.getD 3 0
  let mc := candsAt hi.melodyCands offset
  let m3 := match mc with
    | [] => b3
    | c :: cs => bumpToPc b3 ((maxByWeight c cs).midi % 12)
  let bc := candsAt hi.bassCands offset
  let m0 := match bc with
    | [] => b0
    | c :: cs => bumpToPc b0 ((maxByWeight c cs).midi % 12)
  let hc := sortDescBy Cand.weight (candsAt hi.harmonyCands offset)
  let m1 := match hc with
    | [] => b1
    | c :: _ => bumpToPc b1 (c.midi % 12)
  let m2 := match hc with
    | [] => b2
    | _ :: c2 :: _ => bumpToPc b2 (c2.midi % 12)
    | _ :: [] => bumpToPc b2 ((m1 % 12 + 7) % 12)
  let n0 := match previous with
    | none => m0
    | some p => vlAdjust p.cello m0
  let n1 := match previous with
    | none => m1
    | some p => vlAdjust p.viola m1
  let n2 := match previous with
    | none => m2
    | some p => vlAdjust p.violin2 m2
  let n3 := match previous with
    | none => m3
    | some p => vlAdjust p.violin1 m3
  quadFromTranspose n0 n1 n2 n3

/-- The per-window reduction loop of arrange_to_quartet_v10, threading the
previous assignment for voice leading. -/
def runReduction : List (HarmonyInfo × ℚ) → Option Quad → List Quad
  | [], _ => []
  | (hi, o) :: ws, prev =>
    selectHarmonicVoices hi o prev :: runReduction ws (some (selectHarmonicVoices hi o prev))

/-- detect_parallel_fifths_octaves: indices where both interval classes are a
perfect fifth or a unison and the two voices move in the same direction. -/
def detectParallels (v1 v2 : List ℤ) : List ℕ :=
  (List.range' 1 (min v1.length v2.length - 1)).filter (fun i =>
    decide ((((v1.getD (i - 1) 0 - v2.getD (i - 1) 0).natAbs % 12 = 7 ∧
        (v1.getD i 0 - v2.getD i 0).natAbs % 12 = 7) ∨
      ((v1.getD (i - 1) 0 - v2.getD (i - 1) 0).natAbs % 12 = 0 ∧
        (v1.getD i 0 - v2.getD i 0).natAbs % 12 = 0)) ∧
      0 < (v1.getD i 0 - v1.getD (i - 1) 0) * (v2.getD i 0 - v2.getD (i - 1) 0)))

/-- fix_parallel_motion with the random draws passed explicitly: for each flagged
index in bounds, one coin decides whether to nudge the second voice, and one coin
picks the direction (minus two or plus two semitones); the first voice is never
modified.  The counter k tracks how many random draws have been consumed. -/
def fixAux (rand : ℕ → Bool × Bool) : List ℕ → ℕ → List ℤ → List ℤ → List ℤ × List ℤ
  | [], _, v1, v2 => (v1, v2)
  | idx :: rest, k, v1, v2 =>
    if idx < v1.length ∧ idx < v2.length then
      fixAux rand rest (k + 1) v1
        (if (rand k).1 then v2.set idx (v2.getD idx 0 + (if (rand k).2 then -2 else 2))
         else v2)
    else fixAux rand rest k v1 v2

def fixParallelMotion (v1 v2 : List ℤ) (idxs : List ℕ) (rand : ℕ → Bool × Bool) :
    List ℤ × List ℤ :=
  fixAux rand idxs 0 v1 v2

/-- The whole-sequence parallel-motion post-pass of arrange_to_quartet_v10:
detect parallels between the violin2 and viola streams, fix them on the common
prefix, and leave the other two streams untouched.  The result is the four
streams in the order cello, viola, violin2, violin1. -/
def postPass (qs : List Quad) (rand : ℕ → Bool × Bool) :
    List ℤ × List ℤ × List ℤ × List ℤ :=
  let v2m := qs.map Quad.violin2
  let vam := qs.map Quad.viola
  if v2m = [] ∨ vam = [] then
    (qs.map Quad.cello, vam, v2m, qs.map Quad.violin1)
  else
    let n := min v2m.length vam.length
    let ps := detectParallels (v2m.take n) (vam.take n)
    if ps = [] then (qs.map Quad.cello, vam, v2m, qs.map Quad.violin1)
    else
      (qs.map Quad.cello,
        (fixParallelMotion (v2m.take n) (vam.take n) ps rand).2 ++ vam.drop n,
        (fixParallelMotion (v2m.take n) (vam.take n) ps rand).1 ++ v2m.drop n,
        qs.map Quad.violin1)

/-- The per-slot bounds satisfied by every assignment of the V10 reduction. -/
def QuadBounds (q : Quad) : Prop :=
  (40 ≤ q.cello ∧ q.cello ≤ 70) ∧ (52 ≤ q.viola ∧ q.viola ≤ 87) ∧
    (55 ≤ q.violin2 ∧ q.violin2 ≤ 95) ∧ (60 ≤ q.violin1 ∧ q.violin1 ≤ 95)

/-- A concrete analysis window: pitch classes 7, 0, 8, 1 with descending weights
and one harmony candidate of pitch class 1 (MIDI 25) at offset 0. -/
def hiA : HarmonyInfo :=
  ⟨[(7, 10), (0, 8), (8, 6), (1, 4)], [], [], [⟨0, 25, 5, 1⟩]⟩

/-- A concrete analysis window: pitch classes 7, 2, 10, 3 with descending weights
and one harmony candidate of pitch class 3 (MIDI 27) at offset 0. -/
def hiB : HarmonyInfo :=
  ⟨[(7, 10), (2, 8), (10, 6), (3, 4)], [], [], [⟨0, 27, 5, 1⟩]⟩

/-! ## The V1 arranger (arrange_to_quartet.py) -/

/-- A note datum collected by get_weighted_notes: MIDI number and total weight. -/
structure Nd where
  midi : ℤ
  weight : ℚ

/-- Weight accumulation into the midi_weights table, preserving first-seen order. -/
def addW : List (ℤ × ℚ) → ℤ → ℚ → List (ℤ × ℚ)
  | [], k, w => [(k, w)]
  | (a, b) :: t, k, w => if a = k then (a, b + w) :: t else (a, b) :: addW t k w

/-- min(midi_weights.keys()): the least key of the table. -/
def minKey (m : ℤ × ℚ) (ms : List (ℤ × ℚ)) : ℤ :=
  ms.foldl (fun acc p => if p.1 < acc then p.1 else acc) m.1

/-- Stable ascending insertion for sorted(...) over MIDI numbers. -/
def insertAscInt (x : ℤ) : List ℤ → List ℤ
  | [] => [x]
  | y :: ys => if x < y then x :: y :: ys else y :: insertAscInt x ys

def sortAscInt (l : List ℤ) : List ℤ :=
  l.foldl (fun acc x => insertAscInt x acc) []

/-- select_voices of arrange_to_quartet.py: none for an empty window; otherwise
the bass bonus is applied to the lowest MIDI, the top four MIDI numbers by
summed weight are selected, sorted ascending, and assigned to cello, viola,
violin2, violin1 in order, with missing voices null (rendered as rests). -/
def selectVoices (nd : List Nd) : Option (Option ℤ × Option ℤ × Option ℤ × Option ℤ) :=
  match nd with
  | [] => none
  | n :: ns =>
    match (n :: ns).foldl (fun l x => addW l x.midi x.weight) [] with
    | [] => none
    | m :: ms =>
      let low := minKey m ms
      let mw2 := (m :: ms).map (fun p => if p.1 = low then (p.1, p.2 * 3) else p)
      let ssel := sortAscInt (((sortDescBy Prod.snd mw2).take 4).map Prod.fst)
      some (ssel[0]?, ssel[1]?, ssel[2]?, ssel[3]?)

/-- The assembly loop of arrange_to_quartet.py: windows whose select_voices
result is null contribute no events at all; the others append one event per
voice (a pitch or a rest). -/
def arrangeV1 :
    List (List Nd) →
      List (Option ℤ) × List (Option ℤ) × List (Option ℤ) × List (Option ℤ)
  | [] => ([], [], [], [])
  | w :: ws =>
    match selectVoices w with
    | none => arrangeV1 ws
    | some (c, va, v2, v1) =>
      (c :: (arrangeV1 ws).1, va :: (arrangeV1 ws).2.1, v2 :: (arrangeV1 ws).2.2.1,
        v1 :: (arrangeV1 ws).2.2.2)

/-! ### Helper lemmas for the best-template fold -/

theorem chordFold_snd_mono (b : Bool) (ivs : List ℤ) :
    ∀ (l : List (String × List ℤ)) (acc : Option String × ℚ),
      acc.2 ≤ (l.foldl (chordStep b ivs) acc).2 := by
  intro l
  induction l with
  | nil => intro acc; exact le_refl _
  | cons t rest ih =>
    intro acc
    have h2 : acc.2 ≤ (chordStep b ivs acc t).2 := by
      simp only [chordStep]
      split_ifs with h
      · exact le_of_lt h.1
      · exact le_refl _
    rw [List.foldl_cons]
    exact le_trans h2 (ih (chordStep b ivs acc t))

theorem chordFold_ge (b : Bool) (ivs : List ℤ) :
    ∀ (l : List (String × List ℤ)) (acc : Option String × ℚ) (t : String × List ℤ),
      t ∈ l → 13 / 20 ≤ templateScore b ivs t →
      templateScore b ivs t ≤ (l.foldl (chordStep b ivs) acc).2 := by
  intro l
  induction l with
  | nil => intro acc t ht _; exact absurd ht (List.not_mem_nil t)
  | cons u rest ih =>
    intro acc t ht hs
    rw [List.foldl_cons]
    rcases List.mem_cons.mp ht with rfl | h
    · have h1 : templateScore b ivs t ≤ (chordStep b ivs acc t).2 := by
        simp only [chordStep]
        split_ifs with hc
        · exact le_refl _
        · rcases lt_or_le acc.2 (templateScore b ivs t) with h2 | h2
          · exact absurd ⟨h2, hs⟩ hc
          · exact h2
      exact le_trans h1 (chordFold_snd_mono b ivs rest _)
    · exact ih (chordStep b ivs acc u) t h hs

theorem chordFold_cases (b : Bool) (ivs : List ℤ) :
    ∀ (l : List (String × List ℤ)) (acc : Option String × ℚ),
      l.foldl (chordStep b ivs) acc = acc ∨
      ∃ t ∈ l, l.foldl (chordStep b ivs) acc = (some t.1, templateScore b ivs t) ∧
        13 / 20 ≤ templateScore b ivs t := by
  intro l
  induction l with
  | nil => intro acc; exact Or.inl rfl
  | cons u rest ih =>
    intro acc
    rcases ih (chordStep b ivs acc u) with h | ⟨t, htm, heq, hsc⟩
    · by_cases hc : acc.2 < templateScore b ivs u ∧ 13 / 20 ≤ templateScore b ivs u
      · refine Or.inr ⟨u, List.mem_cons_self u rest, ?_, hc.2⟩
        rw [List.foldl_cons, h]
        simp only [chordStep]
        rw [if_pos hc]
      · refine Or.inl ?_
        rw [List.foldl_cons, h]
        simp only [chordStep]
        rw [if_neg hc]
    · exact Or.inr ⟨t, List.mem_cons_of_mem u htm, by rw [List.foldl_cons]; exact heq, hsc⟩

theorem chordFold_none_iff (b : Bool) (ivs : List ℤ) :
    ∀ (l : List (String × List ℤ)),
      (l.foldl (chordStep b ivs) (none, 0)).1 = none ↔
        ∀ t ∈ l, templateScore b ivs t < 13 / 20 := by
  intro l
  induction l with
  | nil => simp
  | cons u rest ih =>
    rw [List.foldl_cons]
    by_cases hu : templateScore b ivs u < 13 / 20
    · have hstep : chordStep b ivs (none, 0) u = (none, 0) := by
        simp only [chordStep]
        split_ifs with hc
        · exact absurd hc.2 (not_le.mpr hu)
        · rfl
      rw [hstep, ih]
      constructor
      · intro h t ht
        rcases List.mem_cons.mp ht with rfl | hm
        · exact hu
        · exact h t hm
      · intro h t ht
        exact h t (List.mem_cons_of_mem u ht)
    · push_neg at hu
      have hstep : chordStep b ivs (none, 0) u = (some u.1, templateScore b ivs u) := by
        simp only [chordStep]
        rw [if_pos ⟨lt_of_lt_of_le (by norm_num) hu, hu⟩]
      rw [hstep]
      have hsome : (List.foldl (chordStep b ivs) (some u.1, templateScore b ivs u) rest).1 ≠
          none := by
        rcases chordFold_cases b ivs rest (some u.1, templateScore b ivs u) with
          h | ⟨t, _, h, _⟩ <;> rw [h] <;> simp
      constructor
      · intro h; exact absurd h hsome
      · intro h
        exact absurd (h u (List.mem_cons_self u rest)) (not_lt.mpr hu)

theorem templateScore_le_bound (b : Bool) (ivs : List ℤ) (hnd : ivs.Nodup)
    (t : String × List ℤ) (ht : t.2 ≠ []) : templateScore b ivs t ≤ 21 / 20 := by
  have hlen : (0 : ℚ) < (t.2.length : ℚ) := by
    have h0 : 0 < t.2.length := List.length_pos.mpr ht
    exact_mod_cast h0
  have hcard : ((ivs.filter (fun i => i ∈ t.2)).length : ℚ) ≤ (t.2.length : ℚ) := by
    have h1 : (ivs.filter (fun i => i ∈ t.2)).Nodup := hnd.filter _
    have h2 : (ivs.filter (fun i => i ∈ t.2)) ⊆ t.2 := by
      intro x hx
      exact of_decide_eq_true (List.mem_filter.mp hx).2
    have h3 : (ivs.filter (fun i => i ∈ t.2)).length ≤ t.2.length :=
      (h1.subperm h2).length_le
    exact_mod_cast h3
  have hdiv : ((ivs.filter (fun i => i ∈ t.2)).length : ℚ) / (t.2.length : ℚ) ≤ 1 :=
    (div_le_one hlen).mpr hcard
  have hextra : (0 : ℚ) ≤ (1 / 10) * ((ivs.filter (fun i => i ∉ t.2)).length : ℚ) := by
    positivity
  simp only [templateScore]
  split_ifs <;> linarith

theorem chordTemplates_nonempty_entries :
    ∀ t ∈ chordTemplates, t.2 ≠ [] := by decide

/-! ### Claims C5 and C8 -/

/-- Claim C5 (counterexample): on the interval content 0, 5, 7 with root C, the
cited match_chord (six templates only) returns the major symbol C with score 2/3,
while the sus4 template of the eight listed by the claim scores 1 on the same
window and would thus be the highest-scoring of the eight; the returned chord is
therefore not the highest-scoring template among the eight listed. -/
theorem matchChord_c5_counterexample :
    matchChord false [0, 5, 7] 0 "C" = some ("C", 2 / 3) ∧
    ("sus4", ([0, 5, 7] : List ℤ)) ∈ chordTemplatesSpec8 ∧
    templateScore false (intervalSet [0, 5, 7] 0) ("sus4", [0, 5, 7]) = 1 ∧
    ¬ ((1 : ℚ) ≤ 2 / 3) ∧ renderSym "C" "sus4" ≠ "C" := by
  refine ⟨by with_unfolding_all decide, by decide, by with_unfolding_all decide,
    by norm_num, by decide⟩

/-- The threshold and best-template behaviour of match_chord against the six
templates present in the cited extractors. -/
theorem matchChord_spec (b : Bool) (pcs : List ℤ) (rootPc : ℤ) (rootName : String) :
    (matchChord b pcs rootPc rootName = none ↔
      ∀ t ∈ chordTemplates, templateScore b (intervalSet pcs rootPc) t < 13 / 20) ∧
    (∀ sym s, matchChord b pcs rootPc rootName = some (sym, s) →
      13 / 20 ≤ s ∧
      ∃ t ∈ chordTemplates, sym = renderSym rootName t.1 ∧
        s = templateScore b (intervalSet pcs rootPc) t ∧
        ∀ t' ∈ chordTemplates, templateScore b (intervalSet pcs rootPc) t' ≤ s) := by
  constructor
  · constructor
    · intro h t ht
      by_cases hp : pcs = []
      · subst hp
        have hempty : intervalSet ([] : List ℤ) rootPc = [] := rfl
        rw [hempty]
        clear h
        revert t
        rcases b with _ | _ <;> with_unfolding_all decide
      · simp only [matchChord, if_neg hp] at h
        rcases hfold : chordTemplates.foldl (chordStep b (intervalSet pcs rootPc)) (none, 0)
          with ⟨bm, bs⟩
        rw [hfold] at h
        rcases bm with _ | nm
        · have h1 : (chordTemplates.foldl (chordStep b (intervalSet pcs rootPc))
              (none, 0)).1 = none := by rw [hfold]
          exact (chordFold_none_iff b (intervalSet pcs rootPc) chordTemplates).mp h1 t ht
        · exact Option.noConfusion h
    · intro hall
      by_cases hp : pcs = []
      · simp [matchChord, hp]
      · simp only [matchChord, if_neg hp]
        have h2 := (chordFold_none_iff b (intervalSet pcs rootPc) chordTemplates).mpr hall
        rcases hfold : chordTemplates.foldl (chordStep b (intervalSet pcs rootPc)) (none, 0)
          with ⟨bm, bs⟩
        rw [hfold] at h2
        simp only at h2
        rw [h2]
  · intro sym s h
    by_cases hp : pcs = []
    · subst hp
      simp only [matchChord, if_pos rfl] at h
      exact Option.noConfusion h
    · simp only [matchChord, if_neg hp] at h
      rcases hfold : chordTemplates.foldl (chordStep b (intervalSet pcs rootPc)) (none, 0)
        with ⟨bm, bs⟩
      rw [hfold] at h
      rcases bm with _ | nm
      · exact Option.noConfusion h
      · have hinj := Option.some.inj h
        have hsym : renderSym rootName nm = sym := congrArg Prod.fst hinj
        have hbseq : bs = s := congrArg Prod.snd hinj
        rcases chordFold_cases b (intervalSet pcs rootPc) chordTemplates (none, 0) with
          h2 | ⟨t, htm, heq, hsc⟩
        · rw [hfold] at h2
          have h3 : (some nm : Option String) = none := congrArg Prod.fst h2
          exact Option.noConfusion h3
        · rw [hfold] at heq
          have hnm : nm = t.1 := by
            have h4 := congrArg Prod.fst heq
            simpa using h4
          have hbs : bs = templateScore b (intervalSet pcs rootPc) t :=
            congrArg Prod.snd heq
          refine ⟨by rw [← hbseq, hbs]; exact hsc, t, htm, ?_, ?_, ?_⟩
          · rw [← hsym, hnm]
          · rw [← hbseq, hbs]
          · intro t' ht'
            rcases lt_or_le (templateScore b (intervalSet pcs rootPc) t') (13 / 20) with
              h3 | h3
            · rw [← hbseq, hbs]
              exact le_trans (le_of_lt h3) hsc
            · have h4 := chordFold_ge b (intervalSet pcs rootPc) chordTemplates
                (none, 0) t' ht' h3
              rw [hfold] at h4
              rw [← hbseq]
              exact h4

/-- Claim C5 (amended): against the SIX templates actually present in the cited
extractors (major, minor, dom7, min7, diminished, augmented), match_chord returns
null exactly when no template attains a score of at least 0.65; otherwise it
returns a highest-scoring template, rendered as the root name for major, root
plus m for minor, and so on. -/
theorem matchChord_c5_amended (b : Bool) (pcs : List ℤ) (rootPc : ℤ) (rootName : String) :
    (matchChord b pcs rootPc rootName = none ↔
      ∀ t ∈ chordTemplates, templateScore b (intervalSet pcs rootPc) t < 13 / 20) ∧
    (∀ sym s, matchChord b pcs rootPc rootName = some (sym, s) →
      13 / 20 ≤ s ∧
      ∃ t ∈ chordTemplates, sym = renderSym rootName t.1 ∧
        s = templateScore b (intervalSet pcs rootPc) t ∧
        ∀ t' ∈ chordTemplates, templateScore b (intervalSet pcs rootPc) t' ≤ s) :=
  matchChord_spec b pcs rootPc rootName

/-- Claim C5 (witness for the amended theorem): a C major triad with root C is
accepted with symbol C, and its confidence reaches the threshold. -/
theorem matchChord_c5_witness :
    matchChord true [0, 4, 7] 0 "C" = some ("C", 21 / 20) ∧ (13 : ℚ) / 20 ≤ 21 / 20 := by
  refine ⟨by with_unfolding_all decide, ?_⟩
  exact (((matchChord_c5_amended true [0, 4, 7] 0 "C").2) "C" (21 / 20)
    (by with_unfolding_all decide)).1

/-- Claim C8 (counterexample): for an exact major triad the V10 match_chord
returns confidence 1.05, which is outside the unit interval claimed for the
confidence field. -/
theorem matchChord_c8_counterexample :
    matchChord true [0, 4, 7] 0 "C" = some ("C", 21 / 20) ∧ ¬ ((21 : ℚ) / 20 ≤ 1) := by
  refine ⟨by with_unfolding_all decide, by norm_num⟩

/-- Claim C8 (amended): every non-null result of the V10 match_chord has a
confidence in the closed interval from 0.65 to 1.05 (the major bonus can push it
above 1; the acceptance threshold bounds it below). -/
theorem matchChord_c8_amended (pcs : List ℤ) (rootPc : ℤ) (rootName : String)
    (sym : String) (s : ℚ) (h : matchChord true pcs rootPc rootName = some (sym, s)) :
    13 / 20 ≤ s ∧ s ≤ 21 / 20 := by
  obtain ⟨hlo, t, htm, _, hs, _⟩ := ((matchChord_spec true pcs rootPc rootName).2) sym s h
  refine ⟨hlo, ?_⟩
  rw [hs]
  exact templateScore_le_bound true _ (List.nodup_dedup _) t
    (chordTemplates_nonempty_entries t htm)

/-- Claim C8 (witness for the amended theorem): the bounds evaluated on the
concrete major-triad window. -/
theorem matchChord_c8_witness :
    matchChord true [4, 7, 0] 0 "C" = some ("C", 21 / 20) ∧
    (13 : ℚ) / 20 ≤ 21 / 20 ∧ (21 : ℚ) / 20 ≤ 21 / 20 := by
  refine ⟨by with_unfolding_all decide, ?_⟩
  have h := matchChord_c8_amended [4, 7, 0] 0 "C" "C" (21 / 20)
    (by with_unfolding_all decide)
  exact ⟨h.1, h.2⟩

/-! ### Helper lemmas for the first-maximum fold of most_common -/

theorem mostCommon_mem : ∀ (cs : List (ℤ × ℕ)) (c : ℤ × ℕ), mostCommon c cs ∈ c :: cs := by
  intro cs
  induction cs with
  | nil => intro c; simp [mostCommon]
  | cons p ps ih =>
    intro c
    have heq : mostCommon c (p :: ps) = mostCommon (if c.2 < p.2 then p else c) ps := rfl
    rw [heq]
    rcases List.mem_cons.mp (ih (if c.2 < p.2 then p else c)) with h1 | h1
    · rw [h1]
      split_ifs
      · exact List.mem_cons_of_mem c (List.mem_cons_self p ps)
      · exact List.mem_cons_self c _
    · exact List.mem_cons_of_mem c (List.mem_cons_of_mem p h1)

theorem mostCommon_ge : ∀ (cs : List (ℤ × ℕ)) (c : ℤ × ℕ),
    c.2 ≤ (mostCommon c cs).2 ∧ ∀ p ∈ cs, p.2 ≤ (mostCommon c cs).2 := by
  intro cs
  induction cs with
  | nil =>
    intro c
    exact ⟨le_refl _, fun p hp => absurd hp (List.not_mem_nil p)⟩
  | cons q ps ih =>
    intro c
    have heq : mostCommon c (q :: ps) = mostCommon (if c.2 < q.2 then q else c) ps := rfl
    rw [heq]
    obtain ⟨h1, h2⟩ := ih (if c.2 < q.2 then q else c)
    have hc : c.2 ≤ (if c.2 < q.2 then q else c).2 := by
      split_ifs with h
      · exact le_of_lt h
      · exact le_refl _
    have hq : q.2 ≤ (if c.2 < q.2 then q else c).2 := by
      split_ifs with h
      · exact le_refl _
      · exact le_of_not_lt h
    refine ⟨le_trans hc h1, ?_⟩
    intro p hp
    rcases List.mem_cons.mp hp with rfl | hm
    · exact le_trans hq h1
    · exact h2 p hm

theorem foldlMax_le (l : List (ℤ × ℕ)) : ∀ (z m : ℕ), z ≤ m → (∀ p ∈ l, p.2 ≤ m) →
    l.foldl (fun a p => max a p.2) z ≤ m := by
  induction l with
  | nil => intro z m hz _; exact hz
  | cons q ps ih =>
    intro z m hz hall
    rw [List.foldl_cons]
    exact ih (max z q.2) m (max_le hz (hall q (List.mem_cons_self q ps)))
      (fun p hp => hall p (List.mem_cons_of_mem q hp))

theorem le_foldlMax (l : List (ℤ × ℕ)) : ∀ (z : ℕ),
    z ≤ l.foldl (fun a p => max a p.2) z ∧ ∀ p ∈ l, p.2 ≤ l.foldl (fun a p => max a p.2) z := by
  induction l with
  | nil => intro z; exact ⟨le_refl _, fun p hp => absurd hp (List.not_mem_nil p)⟩
  | cons q ps ih =>
    intro z
    rw [List.foldl_cons]
    obtain ⟨h1, h2⟩ := ih (max z q.2)
    refine ⟨le_trans (le_max_left _ _) h1, ?_⟩
    intro p hp
    rcases List.mem_cons.mp hp with rfl | hm
    · exact le_trans (le_max_right _ _) h1
    · exact h2 p hm

theorem mostCommon_eq_maxRaw (c : ℤ × ℕ) (cs : List (ℤ × ℕ)) :
    (mostCommon c cs).2 = maxRawCount (c :: cs) := by
  apply le_antisymm
  · have hm := mostCommon_mem cs c
    exact (le_foldlMax (c :: cs) 0).2 (mostCommon c cs) hm
  · obtain ⟨h1, h2⟩ := mostCommon_ge cs c
    refine foldlMax_le (c :: cs) 0 _ (Nat.zero_le _) ?_
    intro p hp
    rcases List.mem_cons.mp hp with rfl | hm
    · exact h1
    · exact h2 p hm

/-! ### Claim C6 -/

/-- Claim C6 (confirmed): in chord identification, when the elected bass root has
a raw occurrence count strictly below 50 percent of the raw count of the most
frequent pitch class, verify_bass_with_frequency replaces the root with a pitch
class attaining that maximal raw count; otherwise the elected root is returned
unchanged. -/
theorem verifyBass_c6 (bp : ℤ) (counts : List (ℤ × ℕ)) (h : counts ≠ []) :
    (((counts.lookup bp).getD 0 : ℚ) < (maxRawCount counts : ℚ) * (1 / 2) →
      ∃ pc, verifyBassWithFrequency (some bp) counts = some pc ∧
        (pc, maxRawCount counts) ∈ counts) ∧
    ((maxRawCount counts : ℚ) * (1 / 2) ≤ ((counts.lookup bp).getD 0 : ℚ) →
      verifyBassWithFrequency (some bp) counts = some bp) := by
  rcases counts with _ | ⟨c, cs⟩
  · exact absurd rfl h
  have hmax := mostCommon_eq_maxRaw c cs
  constructor
  · intro hlt
    refine ⟨(mostCommon c cs).1, ?_, ?_⟩
    · simp only [verifyBassWithFrequency]
      rw [if_pos]
      rw [hmax]
      exact hlt
    · rw [← hmax]
      exact mostCommon_mem cs c
  · intro hge
    simp only [verifyBassWithFrequency]
    rw [if_neg]
    rw [hmax]
    exact not_lt.mpr hge

/-- Claim C6 (witness): a window where the elected bass pitch class 0 occurs once
while pitch class 7 occurs twenty times; the veto fires and returns the most
frequent class. -/
theorem verifyBass_c6_witness :
    ([((0 : ℤ), (1 : ℕ)), ((7 : ℤ), (20 : ℕ))] ≠ ([] : List (ℤ × ℕ))) ∧
    ∃ pc, verifyBassWithFrequency (some 0) [((0 : ℤ), (1 : ℕ)), ((7 : ℤ), (20 : ℕ))] =
        some pc ∧
      (pc, maxRawCount [((0 : ℤ), (1 : ℕ)), ((7 : ℤ), (20 : ℕ))]) ∈
        [((0 : ℤ), (1 : ℕ)), ((7 : ℤ), (20 : ℕ))] := by
  refine ⟨by decide, ?_⟩
  exact (verifyBass_c6 0 [((0 : ℤ), (1 : ℕ)), ((7 : ℤ), (20 : ℕ))] (by decide)).1
    (by with_unfolding_all decide)

/-! ### Claim C7 -/

/-- Claim C7 (counterexample): the duration-weight factor of the cited bass
weighting pass of extract_chords_v7_final.py for a note of a quarter length 0.25
is 0.1, which is outside the claimed range 0.2 to 0.3. -/
theorem durWeight_c7_counterexample :
    durWeightBassV7 (1 / 4) = 1 / 10 ∧
    ¬ ((1 : ℚ) / 5 ≤ 1 / 10 ∧ (1 : ℚ) / 10 ≤ 3 / 10) := by
  constructor
  · with_unfolding_all decide
  · norm_num

/-- Claim C7 (amended): short notes (duration below 0.5 quarter) receive 0.1 in
the bass-election pass and 0.2 or 0.3 in the general pitch passes; in every
cited weighting pass a duration in the half-open band from 0.5 to 1.0 receives
exactly 1.0, and a duration of at least 1.0 receives exactly 2.0. -/
theorem durWeight_c7_amended (d : ℚ) :
    (d < 1 / 2 → durWeightBassV7 d = 1 / 10 ∧ durWeightPitchesV7 d = 1 / 5 ∧
      durWeightArrangeV10 d = 3 / 10) ∧
    (1 / 2 ≤ d → d < 1 → durWeightBassV7 d = 1 ∧ durWeightPitchesV7 d = 1 ∧
      durWeightArrangeV10 d = 1) ∧
    (1 ≤ d → durWeightBassV7 d = 2 ∧ durWeightPitchesV7 d = 2 ∧
      durWeightArrangeV10 d = 2) := by
  unfold durWeightBassV7 durWeightPitchesV7 durWeightArrangeV10
  refine ⟨fun h => ?_, fun h1 h2 => ?_, fun h => ?_⟩ <;> split_ifs <;>
    first
      | exact ⟨rfl, rfl, rfl⟩
      | (exfalso; linarith)

/-- Claim C7 (witness): the amended tier values evaluated at duration 0.25. -/
theorem durWeight_c7_witness :
    ((1 : ℚ) / 4 < 1 / 2) ∧ (durWeightBassV7 (1 / 4) = 1 / 10 ∧
      durWeightPitchesV7 (1 / 4) = 1 / 5 ∧ durWeightArrangeV10 (1 / 4) = 3 / 10) :=
  ⟨by norm_num, (durWeight_c7_amended (1 / 4)).1 (by norm_num)⟩

/-! ### Octave-folding bounds -/

theorem foldUpAux_spec : ∀ (fuel : ℕ) (cmin m : ℤ), cmin - m ≤ 12 * fuel →
    (cmin ≤ m → foldUpAux fuel cmin m = m) ∧
    (m < cmin → cmin ≤ foldUpAux fuel cmin m ∧ foldUpAux fuel cmin m < cmin + 12) := by
  intro fuel
  induction fuel with
  | zero =>
    intro cmin m h
    constructor
    · intro _; rfl
    · intro h2; omega
  | succ f ih =>
    intro cmin m h
    constructor
    · intro h2
      simp only [foldUpAux]
      rw [if_neg (not_lt.mpr h2)]
    · intro h2
      simp only [foldUpAux]
      rw [if_pos h2]
      rcases lt_or_le (m + 12) cmin with h3 | h3
      · exact (ih cmin (m + 12) (by omega)).2 h3
      · rw [(ih cmin (m + 12) (by omega)).1 h3]
        omega

theorem foldUp_id (cmin m : ℤ) (h : cmin ≤ m) : foldUp cmin m = m :=
  (foldUpAux_spec _ cmin m (by omega)).1 h

theorem foldUp_mem (cmin m : ℤ) (h : m < cmin) :
    cmin ≤ foldUp cmin m ∧ foldUp cmin m < cmin + 12 :=
  (foldUpAux_spec _ cmin m (by omega)).2 h

theorem foldDownAux_spec : ∀ (fuel : ℕ) (cmax m : ℤ), m - cmax ≤ 12 * fuel →
    (m ≤ cmax → foldDownAux fuel cmax m = m) ∧
    (cmax < m → cmax - 12 < foldDownAux fuel cmax m ∧ foldDownAux fuel cmax m ≤ cmax) := by
  intro fuel
  induction fuel with
  | zero =>
    intro cmax m h
    constructor
    · intro _; rfl
    · intro h2; omega
  | succ f ih =>
    intro cmax m h
    constructor
    · intro h2
      simp only [foldDownAux]
      rw [if_neg (not_lt.mpr h2)]
    · intro h2
      simp only [foldDownAux]
      rw [if_pos h2]
      rcases lt_or_le cmax (m - 12) with h3 | h3
      · exact (ih cmax (m - 12) (by omega)).2 h3
      · rw [(ih cmax (m - 12) (by omega)).1 h3]
        omega

theorem foldDown_id (cmax m : ℤ) (h : m ≤ cmax) : foldDown cmax m = m :=
  (foldDownAux_spec _ cmax m (by omega)).1 h

theorem foldDown_mem (cmax m : ℤ) (h : cmax < m) :
    cmax - 12 < foldDown cmax m ∧ foldDown cmax m ≤ cmax :=
  (foldDownAux_spec _ cmax m (by omega)).2 h

theorem comfortFold_bounds (cmin cmax m : ℤ) (h : cmin + 11 ≤ cmax) :
    cmin ≤ comfortFold cmin cmax m ∧ comfortFold cmin cmax m ≤ cmax := by
  unfold comfortFold
  split_ifs with h1 h2
  · have := foldUp_mem cmin m h1
    omega
  · have := foldDown_mem cmax m h2
    omega
  · omega

/-! ### Bounds of transpose_to_ideal_range for the three instruments -/

theorem transpose_cello_bounds (m : ℤ) :
    40 ≤ transposeToIdealRange m InstType.cello none ∧
    transposeToIdealRange m InstType.cello none ≤ 70 := by
  have h := comfortFold_bounds 40 70 m (by norm_num)
  simp only [transposeToIdealRange, idealRanges]
  split_ifs <;> omega

theorem transpose_viola_bounds (m : ℤ) (a : Option ℤ) :
    52 ≤ transposeToIdealRange m InstType.viola a ∧
    transposeToIdealRange m InstType.viola a ≤ 87 := by
  have h := comfortFold_bounds 52 80 m (by norm_num)
  rcases a with _ | a <;> simp only [transposeToIdealRange, idealRanges] <;>
    split_ifs <;> first | omega | simp_all

theorem transpose_violin_bounds (m : ℤ) (a : Option ℤ) :
    53 ≤ transposeToIdealRange m InstType.violin a ∧
    transposeToIdealRange m InstType.violin a ≤ 95 := by
  have h := comfortFold_bounds 60 95 m (by norm_num)
  rcases a with _ | a <;> simp only [transposeToIdealRange, idealRanges] <;>
    split_ifs <;> first | omega | simp_all

theorem transpose_violin_none_ge (m : ℤ) :
    60 ≤ transposeToIdealRange m InstType.violin none := by
  have h := comfortFold_bounds 60 95 m (by norm_num)
  simp only [transposeToIdealRange, idealRanges]
  split_ifs <;> omega

theorem transpose_violin_avoid_cases (m a : ℤ) :
    60 ≤ transposeToIdealRange m InstType.violin (some a) ∨
    (transposeToIdealRange m InstType.violin (some a) = a - 7 ∧ 60 ≤ a) := by
  have h := comfortFold_bounds 60 95 m (by norm_num)
  simp only [transposeToIdealRange, idealRanges]
  split_ifs <;> first | (left; omega) | (right; omega) | simp_all

/-! ### The re-sort check: sortedness and permutation -/

theorem insertAscIdx_perm (v : List ℤ) (i : ℕ) :
    ∀ l : List ℕ, (insertAscIdx v i l).Perm (i :: l) := by
  intro l
  induction l with
  | nil => exact List.Perm.refl _
  | cons j js ih =>
    simp only [insertAscIdx]
    split_ifs with h
    · exact List.Perm.refl _
    · exact List.Perm.trans (ih.cons j) (List.Perm.swap i j js)

theorem insertAscIdx_sorted (v : List ℤ) (i : ℕ) :
    ∀ l : List ℕ, l.Pairwise (fun a b => v.getD a 0 ≤ v.getD b 0) →
      (insertAscIdx v i l).Pairwise (fun a b => v.getD a 0 ≤ v.getD b 0) := by
  intro l
  induction l with
  | nil =>
    intro _
    simp [insertAscIdx]
  | cons j js ih =>
    intro hp
    obtain ⟨hj, hjs⟩ := List.pairwise_cons.mp hp
    simp only [insertAscIdx]
    split_ifs with h
    · refine List.pairwise_cons.mpr ⟨?_, hp⟩
      intro b hb
      rcases List.mem_cons.mp hb with rfl | hbm
      · exact le_of_lt h
      · exact le_trans (le_of_lt h) (hj b hbm)
    · refine List.pairwise_cons.mpr ⟨?_, ih hjs⟩
      intro b hb
      rcases List.mem_cons.mp ((insertAscIdx_perm v i js).mem_iff.mp hb) with rfl | hbm
      · exact le_of_not_lt h
      · exact hj b hbm

theorem sortIdxFold_perm (v : List ℤ) :
    ∀ (l acc : List ℕ),
      (l.foldl (fun acc i => insertAscIdx v i acc) acc).Perm (acc ++ l) := by
  intro l
  induction l with
  | nil => intro acc; simp
  | cons i t ih =>
    intro acc
    rw [List.foldl_cons]
    refine List.Perm.trans (ih (insertAscIdx v i acc)) ?_
    refine List.Perm.trans ((insertAscIdx_perm v i acc).append_right t) ?_
    exact List.perm_middle.symm

theorem sortIdxFold_sorted (v : List ℤ) :
    ∀ (l acc : List ℕ), acc.Pairwise (fun a b => v.getD a 0 ≤ v.getD b 0) →
      (l.foldl (fun acc i => insertAscIdx v i acc) acc).Pairwise
        (fun a b => v.getD a 0 ≤ v.getD b 0) := by
  intro l
  induction l with
  | nil => intro acc h; exact h
  | cons i t ih =>
    intro acc h
    rw [List.foldl_cons]
    exact ih (insertAscIdx v i acc) (insertAscIdx_sorted v i acc h)

theorem sortIdx_perm (v : List ℤ) : (sortIdxByVal v).Perm (List.range v.length) := by
  have h := sortIdxFold_perm v (List.range v.length) []
  simpa [sortIdxByVal] using h

theorem sortIdx_sorted (v : List ℤ) :
    (sortIdxByVal v).Pairwise (fun a b => v.getD a 0 ≤ v.getD b 0) :=
  sortIdxFold_sorted v (List.range v.length) [] (List.Pairwise.nil)

theorem range_map_getD (l : List ℤ) :
    (List.range l.length).map (fun i => l.getD i 0) = l := by
  apply List.ext_getElem
  · simp
  · intro i h1 h2
    simp only [List.getElem_map, List.getElem_range]
    exact List.getD_eq_getElem _ _ h2

theorem resortQuad_spec (v : List ℤ) :
    (resortQuad v).Perm v ∧ (resortQuad v).Pairwise (· ≤ ·) := by
  simp only [resortQuad]
  split_ifs with h
  · refine ⟨List.Perm.refl v, ?_⟩
    have hs := sortIdx_sorted v
    rw [h] at hs
    rw [List.pairwise_iff_getElem]
    intro a b ha hb hab
    have h2 := (List.pairwise_iff_getElem.mp hs) a b (by simpa) (by simpa) hab
    simp only [List.getElem_range] at h2
    rwa [List.getD_eq_getElem _ _ ha, List.getD_eq_getElem _ _ hb] at h2
  · constructor
    · refine List.Perm.trans ((sortIdx_perm v).map _) ?_
      rw [range_map_getD]
    · exact (sortIdx_sorted v).map _ (fun a b hab => hab)

theorem resortQuad_four (a b c d : ℤ) :
    ∃ y0 y1 y2 y3 : ℤ, resortQuad [a, b, c, d] = [y0, y1, y2, y3] ∧
      y0 ≤ y1 ∧ y1 ≤ y2 ∧ y2 ≤ y3 ∧ ([y0, y1, y2, y3] : List ℤ).Perm [a, b, c, d] := by
  obtain ⟨hperm, hsort⟩ := resortQuad_spec [a, b, c, d]
  have hlen : (resortQuad [a, b, c, d]).length = 4 := by
    rw [hperm.length_eq]
    rfl
  rcases hL : resortQuad [a, b, c, d] with
    _ | ⟨y0, _ | ⟨y1, _ | ⟨y2, _ | ⟨y3, _ | ⟨z, zs⟩⟩⟩⟩⟩ <;>
    rw [hL] at hlen hperm hsort
  · simp at hlen
  · simp at hlen
  · simp at hlen
  · simp at hlen
  · refine ⟨y0, y1, y2, y3, rfl, ?_, ?_, ?_, hperm⟩
    · exact (List.pairwise_cons.mp hsort).1 y1 (by simp)
    · exact (List.pairwise_cons.mp (List.pairwise_cons.mp hsort).2).1 y2 (by simp)
    · exact (List.pairwise_cons.mp
        (List.pairwise_cons.mp (List.pairwise_cons.mp hsort).2).2).1 y3 (by simp)
  · simp at hlen

/-! ### Slot bounds after the re-sort -/

set_option maxHeartbeats 2000000 in
theorem sorted_perm_slot_bounds {a b c d y0 y1 y2 y3 : ℤ}
    (hp : ([y0, y1, y2, y3] : List ℤ).Perm [a, b, c, d])
    (h01 : y0 ≤ y1) (h12 : y1 ≤ y2) (h23 : y2 ≤ y3)
    (ha1 : 40 ≤ a) (ha2 : a ≤ 70) (hb1 : 52 ≤ b) (hb2 : b ≤ 87)
    (hc1 : 53 ≤ c) (hc2 : c ≤ 95) (hd1 : 60 ≤ d) (hd2 : d ≤ 95)
    (hcb : 55 ≤ c ∨ 60 ≤ b) :
    (40 ≤ y0 ∧ y0 ≤ 70) ∧ (52 ≤ y1 ∧ y1 ≤ 87) ∧ (55 ≤ y2 ∧ y2 ≤ 95) ∧
      (60 ≤ y3 ∧ y3 ≤ 95) := by
  have hya : a ∈ ([y0, y1, y2, y3] : List ℤ) := hp.symm.subset (by simp)
  have hyd : d ∈ ([y0, y1, y2, y3] : List ℤ) := hp.symm.subset (by simp)
  have hy0 : y0 ∈ ([a, b, c, d] : List ℤ) := hp.subset (by simp)
  have hy2m : y2 ∈ ([a, b, c, d] : List ℤ) := hp.subset (by simp)
  have hy3m : y3 ∈ ([a, b, c, d] : List ℤ) := hp.subset (by simp)
  simp only [List.mem_cons, List.not_mem_nil, or_false] at hya hyd hy0 hy2m hy3m
  have hy0low : 40 ≤ y0 := by omega
  have hy0high : y0 ≤ 70 := by omega
  have hy3low : 60 ≤ y3 := by omega
  have hy3high : y3 ≤ 95 := by omega
  have hy2high : y2 ≤ 95 := by omega
  have hcnt52 := hp.countP_eq (fun x => decide (x < 52))
  have hcnt55 := hp.countP_eq (fun x => decide (x < 55))
  have hcnt87 := hp.countP_eq (fun x => decide (87 < x))
  simp only [List.countP_cons, List.countP_nil, decide_eq_true_eq] at hcnt52 hcnt55 hcnt87
  have hy1low : 52 ≤ y1 := by
    by_contra hcon
    push_neg at hcon
    split_ifs at hcnt52 <;> omega
  have hy1high : y1 ≤ 87 := by
    by_contra hcon
    push_neg at hcon
    split_ifs at hcnt87 <;> omega
  have hy2low : 55 ≤ y2 := by
    by_contra hcon
    push_neg at hcon
    rcases hcb with hcb | hcb <;> (split_ifs at hcnt55 <;> omega)
  exact ⟨⟨hy0low, hy0high⟩, ⟨hy1low, hy1high⟩, ⟨hy2low, hy2high⟩, ⟨hy3low, hy3high⟩⟩

/-- Every assignment produced by the range-folding and re-sort tail satisfies the
per-slot bounds: cello in 40..70, viola in 52..87, violin2 in 55..95, violin1 in
60..95 (each inside the absolute instrument range). -/
theorem quadFromTranspose_bounds (n0 n1 n2 n3 : ℤ) :
    (40 ≤ (quadFromTranspose n0 n1 n2 n3).cello ∧
      (quadFromTranspose n0 n1 n2 n3).cello ≤ 70) ∧
    (52 ≤ (quadFromTranspose n0 n1 n2 n3).viola ∧
      (quadFromTranspose n0 n1 n2 n3).viola ≤ 87) ∧
    (55 ≤ (quadFromTranspose n0 n1 n2 n3).violin2 ∧
      (quadFromTranspose n0 n1 n2 n3).violin2 ≤ 95) ∧
    (60 ≤ (quadFromTranspose n0 n1 n2 n3).violin1 ∧
      (quadFromTranspose n0 n1 n2 n3).violin1 ≤ 95) := by
  have ha := transpose_cello_bounds n0
  have hb := transpose_viola_bounds n1 (some n2)
  have hc := transpose_violin_bounds n2
    (some (transposeToIdealRange n1 InstType.viola (some n2)))
  have hd0 := transpose_violin_none_ge n3
  have hd := transpose_violin_bounds n3 none
  have hcases := transpose_violin_avoid_cases n2
    (transposeToIdealRange n1 InstType.viola (some n2))
  obtain ⟨y0, y1, y2, y3, hL, h01, h12, h23, hperm⟩ :=
    resortQuad_four (transposeToIdealRange n0 InstType.cello none)
      (transposeToIdealRange n1 InstType.viola (some n2))
      (transposeToIdealRange n2 InstType.violin
        (some (transposeToIdealRange n1 InstType.viola (some n2))))
      (transposeToIdealRange n3 InstType.violin none)
  have hcb : 55 ≤ transposeToIdealRange n2 InstType.violin
      (some (transposeToIdealRange n1 InstType.viola (some n2))) ∨
      60 ≤ transposeToIdealRange n1 InstType.viola (some n2) := by
    rcases hcases with h | ⟨_, h⟩
    · left; omega
    · right; exact h
  have hslots := sorted_perm_slot_bounds hperm h01 h12 h23 ha.1 ha.2 hb.1 hb.2 hc.1 hc.2
    hd0 hd.2 hcb
  simp only [quadFromTranspose, hL]
  simpa using hslots

/-- Every assignment produced by the range-folding and re-sort tail is ordered:
cello at most viola at most violin2 at most violin1. -/
theorem quadFromTranspose_sorted (n0 n1 n2 n3 : ℤ) :
    (quadFromTranspose n0 n1 n2 n3).cello ≤ (quadFromTranspose n0 n1 n2 n3).viola ∧
    (quadFromTranspose n0 n1 n2 n3).viola ≤ (quadFromTranspose n0 n1 n2 n3).violin2 ∧
    (quadFromTranspose n0 n1 n2 n3).violin2 ≤ (quadFromTranspose n0 n1 n2 n3).violin1 := by
  obtain ⟨y0, y1, y2, y3, hL, h01, h12, h23, _⟩ :=
    resortQuad_four (transposeToIdealRange n0 InstType.cello none)
      (transposeToIdealRange n1 InstType.viola (some n2))
      (transposeToIdealRange n2 InstType.violin
        (some (transposeToIdealRange n1 InstType.viola (some n2))))
      (transposeToIdealRange n3 InstType.violin none)
  simp only [quadFromTranspose, hL]
  simpa using ⟨h01, h12, h23⟩

theorem selectHarmonicVoices_bounds (hi : HarmonyInfo) (o : ℚ) (prev : Option Quad) :
    QuadBounds (selectHarmonicVoices hi o prev) := by
  simp only [selectHarmonicVoices, QuadBounds]
  exact quadFromTranspose_bounds _ _ _ _

theorem selectHarmonicVoices_sorted (hi : HarmonyInfo) (o : ℚ) (prev : Option Quad) :
    (selectHarmonicVoices hi o prev).cello ≤ (selectHarmonicVoices hi o prev).viola ∧
    (selectHarmonicVoices hi o prev).viola ≤ (selectHarmonicVoices hi o prev).violin2 ∧
    (selectHarmonicVoices hi o prev).violin2 ≤ (selectHarmonicVoices hi o prev).violin1 := by
  simp only [selectHarmonicVoices]
  exact quadFromTranspose_sorted _ _ _ _

theorem runReduction_bounds : ∀ (ws : List (HarmonyInfo × ℚ)) (prev : Option Quad),
    ∀ q ∈ runReduction ws prev, QuadBounds q := by
  intro ws
  induction ws with
  | nil =>
    intro prev q hq
    simp [runReduction] at hq
  | cons w rest ih =>
    intro prev q hq
    rcases w with ⟨hi, o⟩
    simp only [runReduction] at hq
    rcases List.mem_cons.mp hq with rfl | hm
    · exact selectHarmonicVoices_bounds hi o prev
    · exact ih _ q hm

/-! ### The parallel-motion post-pass preserves the first voice and nudges the
second by at most two semitones -/

theorem getD_mem_of_lt (l : List ℤ) (n : ℕ) (d : ℤ) (h : n < l.length) :
    l.getD n d ∈ l := by
  rw [List.getD_eq_getElem _ _ h]
  exact List.getElem_mem h

theorem fixAux_fst (rand : ℕ → Bool × Bool) :
    ∀ (idxs : List ℕ) (k : ℕ) (v1 v2 : List ℤ), (fixAux rand idxs k v1 v2).1 = v1 := by
  intro idxs
  induction idxs with
  | nil => intro k v1 v2; rfl
  | cons idx rest ih =>
    intro k v1 v2
    simp only [fixAux]
    split_ifs <;> exact ih _ _ _

theorem getD_set_ne : ∀ (l : List ℤ) (i j : ℕ) (x d : ℤ), i ≠ j →
    (l.set i x).getD j d = l.getD j d := by
  intro l
  induction l with
  | nil => intro i j x d _; rfl
  | cons a t ih =>
    intro i j x d h
    cases i with
    | zero =>
      cases j with
      | zero => exact absurd rfl h
      | succ j => rfl
    | succ i =>
      cases j with
      | zero => rfl
      | succ j => exact ih i j x d (fun hh => h (congrArg Nat.succ hh))

theorem fixAux_snd_bounds (rand : ℕ → Bool × Bool) :
    ∀ (idxs : List ℕ), idxs.Pairwise (fun a b => a ≠ b) →
      ∀ (k : ℕ) (v1 v2 : List ℤ),
        (∀ j ∈ idxs, j < v2.length → 52 ≤ v2.getD j 0 ∧ v2.getD j 0 ≤ 87) →
        (∀ x ∈ v2, 50 ≤ x ∧ x ≤ 89) →
        ∀ x ∈ (fixAux rand idxs k v1 v2).2, 50 ≤ x ∧ x ≤ 89 := by
  intro idxs
  induction idxs with
  | nil =>
    intro _ k v1 v2 _ hq x hx
    exact hq x hx
  | cons idx rest ih =>
    intro hpw k v1 v2 hp hq
    obtain ⟨hne, hpw'⟩ := List.pairwise_cons.mp hpw
    have hold := hp idx (List.mem_cons_self idx rest)
    simp only [fixAux]
    split_ifs with hb hcoin hdelta
    · refine ih hpw' (k + 1) v1 _ ?_ ?_
      · intro j hj hjl
        rw [getD_set_ne v2 idx j _ 0 (hne j hj)]
        refine hp j (List.mem_cons_of_mem idx hj) ?_
        rwa [List.length_set] at hjl
      · intro x hx
        rcases List.mem_or_eq_of_mem_set hx with hx2 | rfl
        · exact hq x hx2
        · have := hold hb.2
          omega
    · refine ih hpw' (k + 1) v1 _ ?_ ?_
      · intro j hj hjl
        rw [getD_set_ne v2 idx j _ 0 (hne j hj)]
        refine hp j (List.mem_cons_of_mem idx hj) ?_
        rwa [List.length_set] at hjl
      · intro x hx
        rcases List.mem_or_eq_of_mem_set hx with hx2 | rfl
        · exact hq x hx2
        · have := hold hb.2
          omega
    · exact ih hpw' (k + 1) v1 v2 (fun j hj => hp j (List.mem_cons_of_mem idx hj)) hq
    · exact ih hpw' k v1 v2 (fun j hj => hp j (List.mem_cons_of_mem idx hj)) hq

theorem detectParallels_pairwise (v1 v2 : List ℤ) :
    (detectParallels v1 v2).Pairwise (fun a b => a ≠ b) := by
  unfold detectParallels
  refine List.Pairwise.filter _ ?_
  exact (List.pairwise_lt_range' 1 _).imp (fun h => Nat.ne_of_lt h)

/-! ### Claim C2: absolute range compliance of the full pipeline -/

theorem postPass_bounds (qs : List Quad) (rand : ℕ → Bool × Bool)
    (hq : ∀ q ∈ qs, QuadBounds q) :
    (∀ x ∈ (postPass qs rand).1, 36 ≤ x ∧ x ≤ 84) ∧
    (∀ x ∈ (postPass qs rand).2.1, 48 ≤ x ∧ x ≤ 91) ∧
    (∀ x ∈ (postPass qs rand).2.2.1, 55 ≤ x ∧ x ≤ 103) ∧
    (∀ x ∈ (postPass qs rand).2.2.2, 55 ≤ x ∧ x ≤ 103) := by
  have hc : ∀ x ∈ qs.map Quad.cello, 40 ≤ x ∧ x ≤ 70 := by
    intro x hx
    obtain ⟨q, hqm, rfl⟩ := List.mem_map.mp hx
    exact (hq q hqm).1
  have hva : ∀ x ∈ qs.map Quad.viola, 52 ≤ x ∧ x ≤ 87 := by
    intro x hx
    obtain ⟨q, hqm, rfl⟩ := List.mem_map.mp hx
    exact (hq q hqm).2.1
  have hv2 : ∀ x ∈ qs.map Quad.violin2, 55 ≤ x ∧ x ≤ 95 := by
    intro x hx
    obtain ⟨q, hqm, rfl⟩ := List.mem_map.mp hx
    exact (hq q hqm).2.2.1
  have hv1 : ∀ x ∈ qs.map Quad.violin1, 60 ≤ x ∧ x ≤ 95 := by
    intro x hx
    obtain ⟨q, hqm, rfl⟩ := List.mem_map.mp hx
    exact (hq q hqm).2.2.2
  simp only [postPass]
  split_ifs with hemp hps
  · refine ⟨fun x hx => ?_, fun x hx => ?_, fun x hx => ?_, fun x hx => ?_⟩
    · have := hc x hx; omega
    · have := hva x hx; omega
    · have := hv2 x hx; omega
    · have := hv1 x hx; omega
  · refine ⟨fun x hx => ?_, fun x hx => ?_, fun x hx => ?_, fun x hx => ?_⟩
    · have := hc x hx; omega
    · have := hva x hx; omega
    · have := hv2 x hx; omega
    · have := hv1 x hx; omega
  · refine ⟨fun x hx => ?_, fun x hx => ?_, fun x hx => ?_, fun x hx => ?_⟩
    · have := hc x hx; omega
    · rcases List.mem_append.mp hx with hx2 | hx2
      · have hfix := fixAux_snd_bounds rand _ (detectParallels_pairwise _ _) 0
          (List.take _ (qs.map Quad.violin2)) (List.take _ (qs.map Quad.viola))
          ?_ ?_ x hx2
        · omega
        · intro j _ hjl
          have hmem : (List.take (min (qs.map Quad.violin2).length
              (qs.map Quad.viola).length) (qs.map Quad.viola)).getD j 0 ∈
              List.take (min (qs.map Quad.violin2).length (qs.map Quad.viola).length)
                (qs.map Quad.viola) := getD_mem_of_lt _ _ _ hjl
          have := hva _ (List.take_subset _ _ hmem)
          omega
        · intro y hy
          have := hva y (List.take_subset _ _ hy)
          omega
      · have := hva x (List.drop_subset _ _ hx2)
        omega
    · rcases List.mem_append.mp hx with hx2 | hx2
      · rw [fixParallelMotion, fixAux_fst] at hx2
        have := hv2 x (List.take_subset _ _ hx2)
        omega
      · have := hv2 x (List.drop_subset _ _ hx2)
        omega
    · have := hv1 x hx; omega

/-- Claim C2 (confirmed): every pitch emitted by the full V10 pipeline (the
per-window reduction with range folding, the avoid-same-pitch adjustments and
the re-sort, followed by the parallel-motion post-pass with any random draws)
lies within the absolute playable range of its instrument: cello 36..84,
viola 48..91, violin 55..103 for both violin streams. -/
theorem range_compliance_c2 (ws : List (HarmonyInfo × ℚ)) (rand : ℕ → Bool × Bool) :
    (∀ x ∈ (postPass (runReduction ws none) rand).1, 36 ≤ x ∧ x ≤ 84) ∧
    (∀ x ∈ (postPass (runReduction ws none) rand).2.1, 48 ≤ x ∧ x ≤ 91) ∧
    (∀ x ∈ (postPass (runReduction ws none) rand).2.2.1, 55 ≤ x ∧ x ≤ 103) ∧
    (∀ x ∈ (postPass (runReduction ws none) rand).2.2.2, 55 ≤ x ∧ x ≤ 103) :=
  postPass_bounds (runReduction ws none) rand (runReduction_bounds ws none)

/-! ### Claim C1: voice ordering -/

/-- Claim C1 (amended): every VoiceAssignment emitted by the V10 reduction is
ordered cello at most viola at most violin2 at most violin1 after range folding,
because the reduction re-sorts the four voices after folding; the ordering is
not an invariant of the final arrangement, since the parallel-motion post-pass
can nudge the viola stream above the violin2 stream. -/
theorem voice_ordering_c1_amended (ws : List (HarmonyInfo × ℚ)) (prev : Option Quad) :
    ∀ q ∈ runReduction ws prev,
      q.cello ≤ q.viola ∧ q.viola ≤ q.violin2 ∧ q.violin2 ≤ q.violin1 := by
  induction ws generalizing prev with
  | nil =>
    intro q hq
    simp [runReduction] at hq
  | cons w rest ih =>
    intro q hq
    rcases w with ⟨hi, o⟩
    simp only [runReduction] at hq
    rcases List.mem_cons.mp hq with rfl | hm
    · exact selectHarmonicVoices_sorted hi o prev
    · exact ih _ q hm

/-- Claim C1 (counterexample): a two-window arrangement whose reduced windows are
both correctly ordered, on which the parallel-motion post-pass flags the unison
parallel between viola and violin2 and (for the random draw that nudges upward)
raises the viola of the second window to 65, above the violin2 pitch 63 — the
ordering does not survive the post-pass. -/
theorem voice_ordering_c1_counterexample :
    (∀ q ∈ runReduction [(hiA, 0), (hiB, 0)] none,
      q.cello ≤ q.viola ∧ q.viola ≤ q.violin2 ∧ q.violin2 ≤ q.violin1) ∧
    postPass (runReduction [(hiA, 0), (hiB, 0)] none) (fun _ => (true, false)) =
      ([43, 43], [61, 65], [61, 63], [68, 70]) ∧
    ¬ ((65 : ℤ) ≤ 63) := by
  refine ⟨by with_unfolding_all decide, by with_unfolding_all decide, by decide⟩

/-! ### Claim C9: determinism -/

/-- Claim C9 (counterexample): two runs of the pipeline on the identical input
that differ only in the random draws of the parallel-motion post-pass produce
different output streams. -/
theorem determinism_c9_counterexample :
    postPass (runReduction [(hiA, 0), (hiB, 0)] none) (fun _ => (true, false)) ≠
      postPass (runReduction [(hiA, 0), (hiB, 0)] none) (fun _ => (false, false)) := by
  with_unfolding_all decide

/-- Claim C9 (amended): the per-window reduction and the chord identification are
pure functions, and the full pipeline output is independent of the random source
exactly as long as no parallel violation is flagged; a flagged violation makes
the output depend on the random draws. -/
theorem determinism_c9_amended (qs : List Quad) (rand rand' : ℕ → Bool × Bool)
    (h : detectParallels (qs.map Quad.violin2) (qs.map Quad.viola) = []) :
    postPass qs rand = postPass qs rand' := by
  have h1 : (qs.map Quad.violin2).take (min (qs.map Quad.violin2).length
      (qs.map Quad.viola).length) = qs.map Quad.violin2 :=
    List.take_of_length_le (by simp)
  have h2 : (qs.map Quad.viola).take (min (qs.map Quad.violin2).length
      (qs.map Quad.viola).length) = qs.map Quad.viola :=
    List.take_of_length_le (by simp)
  simp only [postPass, h1, h2, h]
  split_ifs <;> rfl

/-- Claim C9 (witness for the amended theorem): a one-window arrangement flags no
parallels, and its post-pass output is the same for two different random sources. -/
theorem determinism_c9_witness :
    detectParallels ([(⟨40, 60, 70, 80⟩ : Quad)].map Quad.violin2)
        ([(⟨40, 60, 70, 80⟩ : Quad)].map Quad.viola) = [] ∧
    postPass [(⟨40, 60, 70, 80⟩ : Quad)] (fun _ => (true, true)) =
      postPass [(⟨40, 60, 70, 80⟩ : Quad)] (fun _ => (false, false)) :=
  ⟨by decide, determinism_c9_amended [⟨40, 60, 70, 80⟩] _ _ (by decide)⟩

/-! ### Claim C10: voice-leading smoothing -/

/-- Claim C10 (confirmed): when a previous assignment exists and the selected
pitch is more than an octave away from the previous pitch of its voice, the
smoothing replacement keeps the pitch class of the selected pitch, is at least
as close to the previous pitch as every pitch of that class, and is therefore at
most six semitones from the previous pitch. -/
theorem vl_smoothing_c10 (previous current : ℤ)
    (h : 12 < (current - previous).natAbs) :
    (vlAdjust previous current) % 12 = current % 12 ∧
    (∀ c : ℤ, c % 12 = current % 12 →
      (vlAdjust previous current - previous).natAbs ≤ (c - previous).natAbs) ∧
    (vlAdjust previous current - previous).natAbs ≤ 6 := by
  have hopts : vlOptions previous current =
      [(((previous + -12) / 12) * 12 + current % 12,
          ((((previous + -12) / 12) * 12 + current % 12) - previous).natAbs),
        (((previous + 0) / 12) * 12 + current % 12,
          ((((previous + 0) / 12) * 12 + current % 12) - previous).natAbs),
        (((previous + 12) / 12) * 12 + current % 12,
          ((((previous + 12) / 12) * 12 + current % 12) - previous).natAbs)] := rfl
  have hdiv1 : (previous + -12) / 12 = previous / 12 - 1 := by omega
  have hdiv2 : (previous + 0) / 12 = previous / 12 := by norm_num
  have hdiv3 : (previous + 12) / 12 = previous / 12 + 1 := by omega
  simp only [vlAdjust, hopts, minBySnd, List.foldl_cons, List.foldl_nil, hdiv1, hdiv2, hdiv3]
  rw [if_pos h]
  refine ⟨?_, ?_, ?_⟩
  · split_ifs <;> omega
  · intro c hc
    split_ifs <;> omega
  · split_ifs <;> omega

/-- Claim C10 (witness): smoothing a leap from 60 to 74 yields a pitch of the
same class within six semitones of 60. -/
theorem vl_smoothing_c10_witness :
    (12 < ((74 : ℤ) - 60).natAbs) ∧ (vlAdjust 60 74) % 12 = (74 : ℤ) % 12 ∧
    (vlAdjust 60 74 - 60).natAbs ≤ 6 :=
  ⟨by decide, (vl_smoothing_c10 60 74 (by decide)).1, (vl_smoothing_c10 60 74 (by decide)).2.2⟩

theorem addW_ne_nil : ∀ (l : List (ℤ × ℚ)) (k : ℤ) (w : ℚ), addW l k w ≠ [] := by
  intro l k w
  cases l with
  | nil => simp [addW]
  | cons p t =>
    rcases p with ⟨a, b⟩
    simp only [addW]
    split_ifs <;> simp

theorem foldl_addW_ne_nil : ∀ (ns : List Nd) (l : List (ℤ × ℚ)), l ≠ [] →
    ns.foldl (fun acc x => addW acc x.midi x.weight) l ≠ [] := by
  intro ns
  induction ns with
  | nil => intro l h; exact h
  | cons n t ih =>
    intro l h
    rw [List.foldl_cons]
    exact ih _ (addW_ne_nil l _ _)

theorem selectVoices_none_iff (w : List Nd) : selectVoices w = none ↔ w = [] := by
  constructor
  · intro h
    rcases w with - | ⟨n, ns⟩
    · rfl
    · exfalso
      simp only [selectVoices] at h
      rcases hmw : (n :: ns).foldl (fun l x => addW l x.midi x.weight) [] with - | ⟨m, ms⟩
      · have hne := foldl_addW_ne_nil ns (addW [] n.midi n.weight) (addW_ne_nil [] _ _)
        rw [List.foldl_cons] at hmw
        exact hne hmw
      · rw [hmw] at h
        exact Option.noConfusion h
  · intro h
    subst h
    rfl

/-! ### Claim C3: empty windows -/

/-- Claim C3 (counterexample): in the cited assembler a window with zero
candidates yields a null select_voices result and contributes no events at all:
a two-window timeline whose second window is empty produces one event per voice,
with no rests for the empty window, so the output does not cover the timeline. -/
theorem empty_window_c3_counterexample :
    selectVoices [] = none ∧
    arrangeV1 [[⟨60, 1⟩], []] = ([some 60], [none], [none], [none]) ∧
    ([some (60 : ℤ)] : List (Option ℤ)).length ≠ 2 := by
  refine ⟨rfl, by with_unfolding_all decide, by decide⟩

/-- Claim C3 (amended): select_voices yields null exactly for a window with zero
candidates, and the assembler emits events only for windows with a non-null
result, so each voice stream has exactly one event per nonempty window and
empty windows are omitted from the output rather than rendered as four rests;
windows with fewer than four distinct pitches render the missing voices as
rests (null events) of the window duration. -/
theorem empty_window_c3_amended (ws : List (List Nd)) :
    (∀ w : List Nd, selectVoices w = none ↔ w = []) ∧
    (arrangeV1 ws).1.length = (ws.filter (fun w => !w.isEmpty)).length ∧
    (arrangeV1 ws).2.1.length = (ws.filter (fun w => !w.isEmpty)).length ∧
    (arrangeV1 ws).2.2.1.length = (ws.filter (fun w => !w.isEmpty)).length ∧
    (arrangeV1 ws).2.2.2.length = (ws.filter (fun w => !w.isEmpty)).length := by
  refine ⟨selectVoices_none_iff, ?_⟩
  induction ws with
  | nil => exact ⟨rfl, rfl, rfl, rfl⟩
  | cons w rest ih =>
    rcases hw : selectVoices w with - | ⟨c, va, v2, v1⟩
    · have hwe : w = [] := (selectVoices_none_iff w).mp hw
      subst hwe
      simp only [arrangeV1, hw, List.filter_cons, List.isEmpty_nil, Bool.not_true,
        Bool.false_eq_true, if_false]
      exact ih
    · have hne : w ≠ [] := by
        intro hcon
        rw [(selectVoices_none_iff w).mpr hcon] at hw
        exact Option.noConfusion hw
      have hemp : w.isEmpty = false := by
        rcases w with - | ⟨x, xs⟩
        · exact absurd rfl hne
        · rfl
      simp only [arrangeV1, hw, List.filter_cons, hemp, Bool.not_false, if_true,
        List.length_cons]
      exact ⟨by rw [ih.1], by rw [ih.2.1], by rw [ih.2.2.1], by rw [ih.2.2.2]⟩

/-! ### Claim C4: fifth-stacking fallback -/

theorem insertDescBy_length {α : Type} (f : α → ℚ) (x : α) :
    ∀ l : List α, (insertDescBy f x l).length = l.length + 1 := by
  intro l
  induction l with
  | nil => rfl
  | cons y ys ih =>
    simp only [insertDescBy]
    split_ifs
    · rfl
    · simp [ih]

theorem sortDescBy_fold_length {α : Type} (f : α → ℚ) :
    ∀ (l acc : List α),
      (l.foldl (fun acc x => insertDescBy f x acc) acc).length = acc.length + l.length := by
  intro l
  induction l with
  | nil => intro acc; simp
  | cons x t ih =>
    intro acc
    rw [List.foldl_cons, ih, insertDescBy_length]
    simp only [List.length_cons]
    omega

theorem sortDescBy_length {α : Type} (f : α → ℚ) (l : List α) :
    (sortDescBy f l).length = l.length := by
  rw [sortDescBy, sortDescBy_fold_length]
  simp

theorem fillAux_one (a : ℤ) :
    fillAux 4 [a] =
      [a, (a + 7) % 12, ((a + 7) % 12 + 7) % 12, (((a + 7) % 12 + 7) % 12 + 7) % 12] := rfl

theorem fillAux_two (a b : ℤ) :
    fillAux 4 [a, b] = [a, b, (b + 7) % 12, ((b + 7) % 12 + 7) % 12] := rfl

theorem fillAux_three (a b c : ℤ) :
    fillAux 4 [a, b, c] = [a, b, c, (c + 7) % 12] := rfl

theorem fillAux_four (a b c d : ℤ) : fillAux 4 [a, b, c, d] = [a, b, c, d] := rfl

/-- Claim C4 (counterexample): the selection of the cited V1 reduction
(select_voices of arrange_to_quartet.py), fed a window with exactly one
distinct pitch class, assigns only one voice and leaves the other three null
(rests), instead of synthesizing four assigned voices by stacking fifths. -/
theorem fifth_stacking_c4_counterexample :
    selectVoices [⟨60, 1⟩] = some (some 60, none, none, none) ∧
    (([some (60 : ℤ), none, none, none] : List (Option ℤ)).filter
      (fun v => v.isSome)).length = 1 ∧ (1 : ℕ) ≠ 4 := by
  refine ⟨by with_unfolding_all decide, by decide, by decide⟩

/-- Claim C4 (amended): in the V10 reduction, for every nonempty weight table the
selected pitch-class list is filled to exactly four entries, the selected top
classes form its prefix, and every filled entry is a perfect fifth (seven
semitones, mod 12) above its predecessor; the V1 reduction instead leaves
missing voices as rests. -/
theorem fifth_stacking_c4_amended (w : List (ℤ × ℚ)) (h : w ≠ []) :
    (topPcs w).length = 4 ∧
    (topPcs w).take (topBasePcs w).length = topBasePcs w ∧
    ∀ i : ℕ, (topBasePcs w).length ≤ i → i < 4 →
      (topPcs w).getD i 0 = ((topPcs w).getD (i - 1) 0 + 7) % 12 := by
  have htp : topPcs w = fillAux 4 (topBasePcs w) := by
    simp [topPcs, h]
  have hlen4 : (topBasePcs w).length ≤ 4 := by
    simp only [topBasePcs, List.length_map, List.length_take]
    exact min_le_left _ _
  have hne : topBasePcs w ≠ [] := by
    intro hcon
    have hl : 0 < (sortDescBy Prod.snd w).length := by
      rw [sortDescBy_length]
      exact List.length_pos.mpr h
    have hcl := congrArg List.length hcon
    simp only [topBasePcs, List.length_map, List.length_take, List.length_nil] at hcl
    omega
  rcases hb : topBasePcs w with - | ⟨a, - | ⟨b, - | ⟨c, - | ⟨d, - | ⟨e, tail⟩⟩⟩⟩⟩
  · exact absurd hb hne
  · rw [hb] at htp
    rw [htp, fillAux_one]
    refine ⟨rfl, rfl, ?_⟩
    intro i h1 h2
    have h1' : 1 ≤ i := by simpa using h1
    interval_cases i <;> rfl
  · rw [hb] at htp
    rw [htp, fillAux_two]
    refine ⟨rfl, rfl, ?_⟩
    intro i h1 h2
    have h1' : 2 ≤ i := by simpa using h1
    interval_cases i <;> rfl
  · rw [hb] at htp
    rw [htp, fillAux_three]
    refine ⟨rfl, rfl, ?_⟩
    intro i h1 h2
    have h1' : 3 ≤ i := by simpa using h1
    interval_cases i <;> rfl
  · rw [hb] at htp
    rw [htp, fillAux_four]
    refine ⟨rfl, rfl, ?_⟩
    intro i h1 h2
    have h1' : 4 ≤ i := by simpa using h1
    omega
  · exfalso
    rw [hb] at hlen4
    simp at hlen4

/-- Claim C4 (witness for the amended theorem): a weight table with the single
pitch class 0 is filled to the four classes 0, 7, 2, 9 by stacked fifths. -/
theorem fifth_stacking_c4_witness :
    (([((0 : ℤ), (1 : ℚ))] : List (ℤ × ℚ)) ≠ []) ∧
    (topPcs [((0 : ℤ), (1 : ℚ))]).length = 4 :=
  ⟨by decide, (fifth_stacking_c4_amended [((0 : ℤ), (1 : ℚ))] (by decide)).1⟩

/-- Claim C1 (witness for the amended theorem): the window produced from the
concrete analysis input is ordered. -/
theorem voice_ordering_c1_witness :
    ((⟨43, 61, 61, 68⟩ : Quad) ∈ runReduction [(hiA, 0)] none) ∧
    (⟨43, 61, 61, 68⟩ : Quad).cello ≤ (⟨43, 61, 61, 68⟩ : Quad).viola ∧
    (⟨43, 61, 61, 68⟩ : Quad).viola ≤ (⟨43, 61, 61, 68⟩ : Quad).violin2 ∧
    (⟨43, 61, 61, 68⟩ : Quad).violin2 ≤ (⟨43, 61, 61, 68⟩ : Quad).violin1 :=
  ⟨by with_unfolding_all decide,
    voice_ordering_c1_amended [(hiA, 0)] none ⟨43, 61, 61, 68⟩
      (by with_unfolding_all decide)⟩

/-- Claim C2 (witness): the cello pitch 43 emitted for the concrete input lies in
the cello absolute range. -/
theorem range_compliance_c2_witness :
    ((43 : ℤ) ∈ (postPass (runReduction [(hiA, 0)] none) (fun _ => (true, false))).1) ∧
    (36 ≤ (43 : ℤ) ∧ (43 : ℤ) ≤ 84) :=
  ⟨by with_unfolding_all decide,
    (range_compliance_c2 [(hiA, 0)] (fun _ => (true, false))).1 43
      (by with_unfolding_all decide)⟩

/-- Claim C3 (witness for the amended theorem): the amended count evaluated on
the concrete two-window input with one empty window. -/
theorem empty_window_c3_witness :
    (arrangeV1 [[⟨60, 1⟩], []]).1.length =
      (([[⟨60, 1⟩], []] : List (List Nd)).filter (fun w => !w.isEmpty)).length :=
  (empty_window_c3_amended [[⟨60, 1⟩], []]).2.1
